import Mathlib

/-!
Verification of the rangefeed catch-up scan core and two roachprod GCE
helpers of this repository.

The catch-up scan implementation itself is not among the source files
(only its tests are), so the scan, the diff resolver and the intent
resolver are modelled from the specification (sections 3, 4.1, 4.2, 4.3,
6 of spec.md).  The two helpers `serializeLabel` and
`AllowedLocalSSDCount` are embedded directly from
`pkg/roachprod/vm/gce/gcloud.go`.
-/

namespace CatchUp

/-- Keys are opaque byte sequences, ordered lexicographically (spec section 3). -/
abbrev Key := List Nat

/-- Value bytes. -/
abbrev Bytes := List Nat

/-- Lexicographic strict order on keys. -/
def keyLt : Key → Key → Bool
  | _, [] => false
  | [], _ :: _ => true
  | a :: as, b :: bs => decide (a < b) || (decide (a = b) && keyLt as bs)

/-- Non-strict key order, derived from `keyLt` by totality. -/
def keyLe (a b : Key) : Bool := !keyLt b a

/-- Timestamp: (wallTime, logicalTime) pair, totally ordered; the zero value
denotes unversioned/inline (spec section 3). -/
structure Timestamp where
  wall : Nat
  logical : Nat
deriving DecidableEq, Repr

/-- The distinguished zero timestamp. -/
def tsZero : Timestamp := ⟨0, 0⟩

/-- Strict order on timestamps: lexicographic on (wall, logical). -/
def tsLt (a b : Timestamp) : Bool :=
  decide (a.wall < b.wall) || (decide (a.wall = b.wall) && decide (a.logical < b.logical))

/-- Non-strict order on timestamps. -/
def tsLe (a b : Timestamp) : Bool := !tsLt b a

/-- Transaction metadata owning an intent: id, epoch, write timestamp and the
omit-from-feeds flag (spec section 3, "Intent"). -/
structure TxnMeta where
  id : Nat
  epoch : Nat
  writeTs : Timestamp
  omitInRangefeeds : Bool
deriving DecidableEq, Repr

/-- Content of one raw store position (spec section 6, `nextVersion`):
a committed value, an intent marker, or an inline marker.  A committed
value carries the omit-from-feeds bit persisted when an intent of an
omitted transaction was resolved (spec Scenario D requires the scan to
filter such committed writes). -/
inductive Cell where
  | value (v : Bytes) (omitFromFeeds : Bool)
  | intent (txn : TxnMeta) (provisional : Bytes)
  | inline (v : Bytes)
deriving DecidableEq, Repr

/-- One raw position of the versioned store: key, timestamp, content. -/
structure RawPos where
  key : Key
  ts : Timestamp
  cell : Cell
deriving DecidableEq, Repr

/-- Modelled from the spec: the Versioned Store presents raw positions in
iteration order — ascending by key, and per key in timestamp-descending
order (spec section 3, "Versioned Value"). -/
abbrev Store := List RawPos

/-- Half-open key span [startKey, endKey) (spec section 3). -/
structure Span where
  startKey : Key
  endKey : Key

/-- Whether a key lies inside a span. -/
def inSpan (sp : Span) (k : Key) : Bool := keyLe sp.startKey k && keyLt k sp.endKey

/-- Change event (spec section 3): key, value bytes, timestamp, optional
previous value.  PreviousTimestamp is reserved/always-zero (spec section 9,
open question). -/
structure ChangeEvent where
  key : Key
  value : Bytes
  ts : Timestamp
  prevValue : Option Bytes
  prevTs : Timestamp
deriving DecidableEq, Repr

/-- Error taxonomy relevant to the modelled scan (spec section 7): the
inline-layout violation.  Store reads and the collecting emitter of this
model never fail, so no other variant arises. -/
inductive ScanError where
  | unsupportedLayout (msg : String)
deriving DecidableEq, Repr

/-- The message produced on an inline value (spec section 7: must contain
"unexpected inline value"). -/
def inlineMsg : String := "unexpected inline value"

/-- Bytes carried by a cell for diff-resolution purposes: a committed
value's bytes, or an intent's provisional bytes regardless of the omit
flag (spec section 4.2: the omit-from-feeds filter is not applied to diff
lookups).  Inline cells carry no version bytes. -/
def cellBytes : Cell → Option Bytes
  | .value v _ => some v
  | .intent _ prov => some prov
  | .inline _ => none

/-- Modelled from the spec: the Diff Resolver (spec section 4.2).
`resolve(key, referencePosition)` returns the nearest strictly-older
version of the key — the position with the largest timestamp strictly
below the reference — ignoring the scan's time lower bound entirely and
resolving older intents without the omit-from-feeds filter.  Returns the
winning (timestamp, bytes) or none when no older version exists.
`diffStep` is the fold step keeping the best (newest) older version seen. -/
def diffStep (k : Key) (refTs : Timestamp) (best : Option (Timestamp × Bytes))
    (p : RawPos) : Option (Timestamp × Bytes) :=
  if p.key = k ∧ tsLt p.ts refTs = true then
    match cellBytes p.cell with
    | none => best
    | some v =>
      match best with
      | none => some (p.ts, v)
      | some (bt, bv) => if tsLt bt p.ts then some (p.ts, v) else some (bt, bv)
  else best

/-- The Diff Resolver proper: the best strictly-older version over the whole
store, starting from no candidate. -/
def diffResolve (store : Store) (k : Key) (refTs : Timestamp) : Option (Timestamp × Bytes) :=
  store.foldl (diffStep k refTs) none

/-- Whether a timestamp lies in the scan window (startTs, endTs]
(spec section 4.1; the end timestamp is optional). -/
def inWindow (startTs : Timestamp) (endTs : Option Timestamp) (t : Timestamp) : Bool :=
  tsLt startTs t && (match endTs with | none => true | some e => tsLe t e)

/-- Modelled from the spec: classification of one raw position
(spec section 4.1).  Inline aborts with a layout error.  An intent whose
transaction has the omit flag is skipped; otherwise its provisional value
is treated as committed at the transaction's write timestamp.  A committed
value carrying the omit bit is skipped (spec Scenario D); otherwise it is
emitted when its timestamp lies in the window.  Diff resolution, when
requested, queries `diffResolve` with no time bound (spec section 4.1,
"Diff computation"). -/
def emitOne (store : Store) (startTs : Timestamp) (endTs : Option Timestamp)
    (withDiff : Bool) (p : RawPos) : Except ScanError (Option ChangeEvent) :=
  match p.cell with
  | .inline _ => .error (.unsupportedLayout inlineMsg)
  | .intent txn prov =>
    if txn.omitInRangefeeds then .ok none
    else if inWindow startTs endTs txn.writeTs then
      .ok (some ⟨p.key, prov, txn.writeTs,
        if withDiff then (diffResolve store p.key txn.writeTs).map Prod.snd else none, tsZero⟩)
    else .ok none
  | .value v om =>
    if om then .ok none
    else if inWindow startTs endTs p.ts then
      .ok (some ⟨p.key, v, p.ts,
        if withDiff then (diffResolve store p.key p.ts).map Prod.snd else none, tsZero⟩)
    else .ok none

/-- Scan one key's group of raw positions (timestamp-descending) and collect
the events it produces, still in store order; aborts on an inline cell. -/
def scanGroup (store : Store) (startTs : Timestamp) (endTs : Option Timestamp)
    (withDiff : Bool) : List RawPos → Except ScanError (List ChangeEvent)
  | [] => .ok []
  | p :: ps =>
    match emitOne store startTs endTs withDiff p with
    | .error e => .error e
    | .ok none => scanGroup store startTs endTs withDiff ps
    | .ok (some ev) =>
      match scanGroup store startTs endTs withDiff ps with
      | .error e => .error e
      | .ok evs => .ok (ev :: evs)

/-- One step of key grouping: either merge a position into the current
front run (same key) or start a new run. -/
def groupCons (p : RawPos) : List (Key × List RawPos) → List (Key × List RawPos)
  | [] => [(p.key, [p])]
  | (k, g) :: t => if p.key = k then (k, p :: g) :: t else (p.key, [p]) :: (k, g) :: t

/-- Group a position list into runs of adjacent equal keys, keeping order. -/
def groupByKey : List RawPos → List (Key × List RawPos)
  | [] => []
  | p :: ps => groupCons p (groupByKey ps)

/-- Run the groups in order.  Each key's collected events are reversed before
emission so that one key's events come out in ascending timestamp order
(spec section 4.1, ordering/tie-break).  An error aborts immediately:
the failing key's buffered events and everything after are dropped. -/
def runGroups (store : Store) (startTs : Timestamp) (endTs : Option Timestamp)
    (withDiff : Bool) : List (Key × List RawPos) → List ChangeEvent × Option ScanError
  | [] => ([], none)
  | (_, g) :: rest =>
    match scanGroup store startTs endTs withDiff g with
    | .error e => ([], some e)
    | .ok evs =>
      (evs.reverse ++ (runGroups store startTs endTs withDiff rest).1,
       (runGroups store startTs endTs withDiff rest).2)

/-- Modelled from the spec: the CatchUpScan entry point (spec section 4.1).
One forward pass over the span's raw positions; returns the emitted event
sequence together with the aborting error, if any.  The emitter is modelled
as collection into the returned list, so the events paired with an error are
exactly those emitted before the abort. -/
def CatchUpScan (store : Store) (span : Span) (startTs : Timestamp)
    (endTs : Option Timestamp) (withDiff : Bool) : List ChangeEvent × Option ScanError :=
  runGroups store startTs endTs withDiff
    (groupByKey (store.filter (fun p => inSpan span p.key)))

/-- The concrete store of spec Scenario B: committed `b` at ts 1100, intent
at `d` at ts 990 owned by an unrelated (non-omitted) transaction, committed
`e` at ts 1100. -/
def scenarioBStore : Store :=
  [ ⟨[98], ⟨1100, 0⟩, .value [102, 111, 111] false⟩,
    ⟨[100], ⟨990, 0⟩, .intent ⟨7, 1, ⟨990, 0⟩, false⟩ [105, 110, 116]⟩,
    ⟨[101], ⟨1100, 0⟩, .value [98, 97, 114] false⟩ ]

/-- The whole-keyspace span used by Scenario B. -/
def scenarioBSpan : Span := ⟨[], [255]⟩

/-- Whether a cell is an inline marker. -/
def isInline : Cell → Bool
  | .inline _ => true
  | _ => false

/-- Whether a position's write is excluded from feeds: a committed value
carrying the omit bit, or an intent owned by an omitted transaction. -/
def isOmitted (p : RawPos) : Bool :=
  match p.cell with
  | .value _ om => om
  | .intent txn _ => txn.omitInRangefeeds
  | .inline _ => false

/-- Store well-formedness for intents: an intent is presented at its
transaction's write timestamp. -/
def intentTsOk (p : RawPos) : Bool :=
  match p.cell with
  | .intent txn _ => decide (p.ts = txn.writeTs)
  | _ => true

/-- Raw iteration order (spec section 3): ascending by key, per key in
timestamp-descending order. -/
def posLt (p q : RawPos) : Prop :=
  keyLt p.key q.key = true ∨ (p.key = q.key ∧ tsLt q.ts p.ts = true)

/-- Required emission order (spec section 4.1): ascending by key, then
ascending by timestamp within one key. -/
def evLt (a b : ChangeEvent) : Prop :=
  keyLt a.key b.key = true ∨ (a.key = b.key ∧ tsLt a.ts b.ts = true)

instance (p q : RawPos) : Decidable (posLt p q) :=
  inferInstanceAs (Decidable (keyLt p.key q.key = true ∨ (p.key = q.key ∧ tsLt q.ts p.ts = true)))

instance (a b : ChangeEvent) : Decidable (evLt a b) :=
  inferInstanceAs (Decidable (keyLt a.key b.key = true ∨ (a.key = b.key ∧ tsLt a.ts b.ts = true)))

/-- Substring containment on strings, used for error-message claims. -/
def containsStr (needle hay : String) : Prop := needle.data <:+: hay.data

theorem keyLt_irrefl (a : Key) : keyLt a a = false := by
  induction a with
  | nil => rfl
  | cons x xs ih => simp [keyLt, ih]

theorem keyLt_trans {a b c : Key} (h₁ : keyLt a b = true) (h₂ : keyLt b c = true) :
    keyLt a c = true := by
  induction a generalizing b c with
  | nil =>
    cases b with
    | nil => simp [keyLt] at h₁
    | cons y ys =>
      cases c with
      | nil => simp [keyLt] at h₂
      | cons z zs => simp [keyLt]
  | cons x xs ih =>
    cases b with
    | nil => simp [keyLt] at h₁
    | cons y ys =>
      cases c with
      | nil => simp [keyLt] at h₂
      | cons z zs =>
        simp only [keyLt, Bool.or_eq_true, Bool.and_eq_true, decide_eq_true_eq] at h₁ h₂ ⊢
        rcases h₁ with h | ⟨he, h⟩ <;> rcases h₂ with h' | ⟨he', h'⟩
        · exact Or.inl (h.trans h')
        · exact Or.inl (he' ▸ h)
        · exact Or.inl (he ▸ h')
        · exact Or.inr ⟨he.trans he', ih h h'⟩

theorem keyLt_asymm {a b : Key} (h : keyLt a b = true) : keyLt b a = false := by
  cases hba : keyLt b a with
  | false => rfl
  | true =>
    have habs := keyLt_trans h hba
    rw [keyLt_irrefl] at habs
    exact absurd habs (by simp)

theorem tsLt_irrefl (a : Timestamp) : tsLt a a = false := by simp [tsLt]

theorem tsLt_trans {a b c : Timestamp} (h₁ : tsLt a b = true) (h₂ : tsLt b c = true) :
    tsLt a c = true := by
  simp only [tsLt, Bool.or_eq_true, Bool.and_eq_true, decide_eq_true_eq] at h₁ h₂ ⊢
  omega

theorem tsLt_asymm {a b : Timestamp} (h : tsLt a b = true) : tsLt b a = false := by
  simp only [tsLt, Bool.or_eq_true, Bool.and_eq_true, decide_eq_true_eq,
    Bool.or_eq_false_iff, Bool.and_eq_false_iff, decide_eq_false_iff_not] at h ⊢
  omega

theorem tsLe_of_tsLt {a b : Timestamp} (h : tsLt a b = true) : tsLe a b = true := by
  simp only [tsLe, tsLt, Bool.or_eq_true, Bool.and_eq_true, decide_eq_true_eq,
    Bool.not_eq_true', Bool.or_eq_false_iff, Bool.and_eq_false_iff,
    decide_eq_false_iff_not] at h ⊢
  omega

theorem tsLe_refl (a : Timestamp) : tsLe a a = true := by simp [tsLe, tsLt]

theorem tsLe_total_of_not_lt {a b : Timestamp} (h : tsLt a b = false) : tsLe b a = true := by
  simp [tsLe, h]

theorem emitOne_error_of_inline {store : Store} {st : Timestamp} {et : Option Timestamp}
    {wd : Bool} {p : RawPos} (hi : isInline p.cell = true) :
    emitOne store st et wd p = .error (.unsupportedLayout inlineMsg) := by
  cases hc : p.cell with
  | inline v => simp [emitOne, hc]
  | intent txn prov => rw [hc] at hi; simp [isInline] at hi
  | value v om => rw [hc] at hi; simp [isInline] at hi

theorem emitOne_ok_of_not_inline {store : Store} {st : Timestamp} {et : Option Timestamp}
    {wd : Bool} {p : RawPos} (hi : isInline p.cell = false) :
    ∃ o, emitOne store st et wd p = .ok o := by
  cases hc : p.cell with
  | inline v => rw [hc] at hi; simp [isInline] at hi
  | intent txn prov =>
    simp only [emitOne, hc]
    split
    · exact ⟨none, rfl⟩
    · split
      · exact ⟨_, rfl⟩
      · exact ⟨none, rfl⟩
  | value v om =>
    simp only [emitOne, hc]
    split
    · exact ⟨none, rfl⟩
    · split
      · exact ⟨_, rfl⟩
      · exact ⟨none, rfl⟩

theorem emitOne_error_inv {store : Store} {st : Timestamp} {et : Option Timestamp}
    {wd : Bool} {p : RawPos} {e : ScanError}
    (h : emitOne store st et wd p = .error e) :
    e = .unsupportedLayout inlineMsg ∧ isInline p.cell = true := by
  cases hi : isInline p.cell with
  | true => have := @emitOne_error_of_inline store st et wd p hi
            rw [this] at h
            exact ⟨(Except.error.inj h).symm, rfl⟩
  | false =>
    obtain ⟨o, ho⟩ := @emitOne_ok_of_not_inline store st et wd p hi
    rw [ho] at h
    cases h

theorem emitOne_skips_omitted {store : Store} {st : Timestamp} {et : Option Timestamp}
    {wd : Bool} {p : RawPos} (ho : isOmitted p = true) :
    emitOne store st et wd p = .ok none := by
  cases hc : p.cell with
  | inline v => simp [isOmitted, hc] at ho
  | intent txn prov =>
    have ho' : txn.omitInRangefeeds = true := by simpa [isOmitted, hc] using ho
    simp [emitOne, hc, ho']
  | value v om =>
    have ho' : om = true := by simpa [isOmitted, hc] using ho
    simp [emitOne, hc, ho']

theorem emitOne_some_inv {store : Store} {st : Timestamp} {et : Option Timestamp}
    {wd : Bool} {p : RawPos} {ev : ChangeEvent}
    (h : emitOne store st et wd p = .ok (some ev)) :
    ev.key = p.key ∧ inWindow st et ev.ts = true ∧ ev.prevTs = tsZero ∧
    ev.prevValue = (if wd then (diffResolve store p.key ev.ts).map Prod.snd else none) ∧
    isOmitted p = false ∧
    ((∃ txn prov, p.cell = .intent txn prov ∧ ev.ts = txn.writeTs ∧ ev.value = prov) ∨
     (∃ v, p.cell = .value v false ∧ ev.ts = p.ts ∧ ev.value = v)) := by
  cases hc : p.cell with
  | inline v => rw [emitOne_error_of_inline (by simp [isInline, hc])] at h; cases h
  | intent txn prov =>
    simp only [emitOne, hc] at h
    by_cases homit : txn.omitInRangefeeds = true
    · rw [if_pos homit] at h; cases h
    · rw [if_neg homit] at h
      by_cases hwin : inWindow st et txn.writeTs = true
      · rw [if_pos hwin] at h
        obtain rfl : ev = _ := (Option.some.inj (Except.ok.inj h)).symm
        exact ⟨rfl, hwin, rfl, rfl, by simp [isOmitted, hc, homit],
          Or.inl ⟨txn, prov, rfl, rfl, rfl⟩⟩
      · rw [if_neg hwin] at h; cases h
  | value v om =>
    simp only [emitOne, hc] at h
    by_cases hom : om = true
    · rw [if_pos hom] at h; cases h
    · rw [if_neg hom] at h
      have hom' : om = false := by simpa using hom
      by_cases hwin : inWindow st et p.ts = true
      · rw [if_pos hwin] at h
        obtain rfl : ev = _ := (Option.some.inj (Except.ok.inj h)).symm
        exact ⟨rfl, hwin, rfl, rfl, by simp [isOmitted, hc, hom'],
          Or.inr ⟨v, by rw [hom'], rfl, rfl⟩⟩
      · rw [if_neg hwin] at h; cases h

theorem emitOne_key_ts {store : Store} {st : Timestamp} {et : Option Timestamp}
    {wd : Bool} {p : RawPos} {ev : ChangeEvent}
    (h : emitOne store st et wd p = .ok (some ev)) (hts : intentTsOk p = true) :
    ev.key = p.key ∧ ev.ts = p.ts := by
  obtain ⟨hk, -, -, -, -, hshape⟩ := emitOne_some_inv h
  refine ⟨hk, ?_⟩
  rcases hshape with ⟨txn, prov, hc, hevts, -⟩ | ⟨v, hc, hevts, -⟩
  · rw [intentTsOk, hc, decide_eq_true_eq] at hts
    rw [hevts, hts]
  · exact hevts

theorem scanGroup_sound {store : Store} {st : Timestamp} {et : Option Timestamp}
    {wd : Bool} {g : List RawPos} {evs : List ChangeEvent}
    (h : scanGroup store st et wd g = .ok evs) :
    ∀ ev ∈ evs, ∃ p, p ∈ g ∧ emitOne store st et wd p = .ok (some ev) := by
  induction g generalizing evs with
  | nil =>
    obtain rfl : ([] : List ChangeEvent) = evs := Except.ok.inj h
    intro ev hev
    simp at hev
  | cons p ps ih =>
    rw [scanGroup] at h
    cases he : emitOne store st et wd p with
    | error e => rw [he] at h; cases h
    | ok o =>
      rw [he] at h
      cases o with
      | none =>
        intro ev hev
        obtain ⟨q, hq, hq'⟩ := ih h ev hev
        exact ⟨q, List.mem_cons_of_mem p hq, hq'⟩
      | some ev₀ =>
        cases hs : scanGroup store st et wd ps with
        | error e => rw [hs] at h; cases h
        | ok evs' =>
          rw [hs] at h
          obtain rfl : ev₀ :: evs' = evs := Except.ok.inj h
          intro ev hev
          rcases List.mem_cons.mp hev with rfl | hev'
          · exact ⟨p, List.mem_cons_self p ps, he⟩
          · obtain ⟨q, hq, hq'⟩ := ih hs ev hev'
            exact ⟨q, List.mem_cons_of_mem p hq, hq'⟩

theorem scanGroup_error_val {store : Store} {st : Timestamp} {et : Option Timestamp}
    {wd : Bool} {g : List RawPos} {e : ScanError}
    (h : scanGroup store st et wd g = .error e) : e = .unsupportedLayout inlineMsg := by
  induction g with
  | nil => cases h
  | cons p ps ih =>
    rw [scanGroup] at h
    cases he : emitOne store st et wd p with
    | error e' =>
      rw [he] at h
      obtain rfl : e' = e := Except.error.inj h
      exact (emitOne_error_inv he).1
    | ok o =>
      rw [he] at h
      cases o with
      | none => exact ih h
      | some ev₀ =>
        cases hs : scanGroup store st et wd ps with
        | error e' =>
          rw [hs] at h
          obtain rfl : e' = e := Except.error.inj h
          exact ih hs
        | ok evs' => rw [hs] at h; cases h

theorem scanGroup_ok_of_no_inline {store : Store} {st : Timestamp} {et : Option Timestamp}
    {wd : Bool} {g : List RawPos} (hni : ∀ q ∈ g, isInline q.cell = false) :
    ∃ evs, scanGroup store st et wd g = .ok evs := by
  induction g with
  | nil => exact ⟨[], rfl⟩
  | cons p ps ih =>
    obtain ⟨evs', hs⟩ := ih fun q hq => hni q (List.mem_cons_of_mem p hq)
    obtain ⟨o, ho⟩ := @emitOne_ok_of_not_inline store st et wd p
      (hni p (List.mem_cons_self p ps))
    rw [scanGroup, ho]
    cases o with
    | none => exact ⟨evs', hs⟩
    | some ev₀ => rw [hs]; exact ⟨ev₀ :: evs', rfl⟩

theorem scanGroup_error_of_mem_inline {store : Store} {st : Timestamp} {et : Option Timestamp}
    {wd : Bool} {g : List RawPos} {q : RawPos} (hq : q ∈ g) (hi : isInline q.cell = true) :
    scanGroup store st et wd g = .error (.unsupportedLayout inlineMsg) := by
  induction g with
  | nil => simp at hq
  | cons p ps ih =>
    rw [scanGroup]
    rcases List.mem_cons.mp hq with rfl | hq'
    · rw [emitOne_error_of_inline hi]
    · cases he : emitOne store st et wd p with
      | error e => exact congrArg Except.error (emitOne_error_inv he).1.symm ▸ rfl
      | ok o =>
        cases o with
        | none => exact ih hq'
        | some ev₀ => rw [ih hq']

theorem scanGroup_complete {store : Store} {st : Timestamp} {et : Option Timestamp}
    {wd : Bool} {g : List RawPos} {p : RawPos} {ev : ChangeEvent} {evs : List ChangeEvent}
    (hp : p ∈ g) (he : emitOne store st et wd p = .ok (some ev))
    (h : scanGroup store st et wd g = .ok evs) : ev ∈ evs := by
  induction g generalizing evs with
  | nil => simp at hp
  | cons x xs ih =>
    rw [scanGroup] at h
    cases hx : emitOne store st et wd x with
    | error e => rw [hx] at h; cases h
    | ok o =>
      rw [hx] at h
      rcases List.mem_cons.mp hp with rfl | hp'
      · rw [he] at hx
        obtain rfl : some ev = o := Except.ok.inj hx
        cases hs : scanGroup store st et wd xs with
        | error e => rw [hs] at h; cases h
        | ok evs' =>
          rw [hs] at h
          obtain rfl : ev :: evs' = evs := Except.ok.inj h
          exact List.mem_cons_self ev evs'
      · cases o with
        | none => exact ih hp' h
        | some ev₀ =>
          cases hs : scanGroup store st et wd xs with
          | error e => rw [hs] at h; cases h
          | ok evs' =>
            rw [hs] at h
            obtain rfl : ev₀ :: evs' = evs := Except.ok.inj h
            exact List.mem_cons_of_mem ev₀ (ih hp' hs)

theorem scanGroup_pairwise {store : Store} {st : Timestamp} {et : Option Timestamp}
    {wd : Bool} {g : List RawPos} {evs : List ChangeEvent}
    (hQ : ∀ p ∈ g, intentTsOk p = true)
    (hP : List.Pairwise (fun p q : RawPos => p.key = q.key ∧ tsLt q.ts p.ts = true) g)
    (h : scanGroup store st et wd g = .ok evs) :
    List.Pairwise (fun a b : ChangeEvent => a.key = b.key ∧ tsLt b.ts a.ts = true) evs := by
  induction g generalizing evs with
  | nil =>
    obtain rfl : ([] : List ChangeEvent) = evs := Except.ok.inj h
    exact List.Pairwise.nil
  | cons p ps ih =>
    rw [scanGroup] at h
    rw [List.pairwise_cons] at hP
    cases he : emitOne store st et wd p with
    | error e => rw [he] at h; cases h
    | ok o =>
      rw [he] at h
      cases o with
      | none => exact ih (fun q hq => hQ q (List.mem_cons_of_mem p hq)) hP.2 h
      | some ev₀ =>
        cases hs : scanGroup store st et wd ps with
        | error e => rw [hs] at h; cases h
        | ok evs' =>
          rw [hs] at h
          obtain rfl : ev₀ :: evs' = evs := Except.ok.inj h
          rw [List.pairwise_cons]
          constructor
          · intro b hb
            obtain ⟨q, hq, hq'⟩ := scanGroup_sound hs b hb
            obtain ⟨hk₀, ht₀⟩ := emitOne_key_ts he (hQ p (List.mem_cons_self p ps))
            obtain ⟨hkq, htq⟩ := emitOne_key_ts hq' (hQ q (List.mem_cons_of_mem p hq))
            obtain ⟨hke, hte⟩ := hP.1 q hq
            exact ⟨by rw [hk₀, hkq, hke], by rw [ht₀, htq]; exact hte⟩
          · exact ih (fun q hq => hQ q (List.mem_cons_of_mem p hq)) hP.2 hs

theorem groupByKey_key_eq {l : List RawPos} {k : Key} {g : List RawPos}
    (h : (k, g) ∈ groupByKey l) : ∀ p ∈ g, p.key = k := by
  induction l generalizing k g with
  | nil => simp [groupByKey] at h
  | cons x xs ih =>
    rw [groupByKey] at h
    cases hgb : groupByKey xs with
    | nil =>
      rw [hgb, groupCons] at h
      simp only [List.mem_singleton, Prod.mk.injEq] at h
      obtain ⟨rfl, rfl⟩ := h
      intro p hp
      simp only [List.mem_singleton] at hp
      rw [hp]
    | cons kg t =>
      obtain ⟨k₀, g₀⟩ := kg
      rw [hgb, groupCons] at h
      by_cases hx : x.key = k₀
      · rw [if_pos hx] at h
        rcases List.mem_cons.mp h with hh | ht
        · obtain ⟨rfl, rfl⟩ := Prod.mk.injEq .. ▸ hh
          intro p hp
          rcases List.mem_cons.mp hp with rfl | hp'
          · exact hx
          · exact ih (hgb ▸ List.mem_cons_self (k, g₀) t) p hp'
        · exact ih (hgb ▸ List.mem_cons_of_mem (k₀, g₀) ht)
      · rw [if_neg hx] at h
        rcases List.mem_cons.mp h with hh | ht
        · obtain ⟨rfl, rfl⟩ := Prod.mk.injEq .. ▸ hh
          intro p hp
          simp only [List.mem_singleton] at hp
          rw [hp]
        · exact ih (hgb ▸ ht)

theorem groupByKey_ne_nil {l : List RawPos} {k : Key} {g : List RawPos}
    (h : (k, g) ∈ groupByKey l) : g ≠ [] := by
  induction l generalizing k g with
  | nil => simp [groupByKey] at h
  | cons x xs ih =>
    rw [groupByKey] at h
    cases hgb : groupByKey xs with
    | nil =>
      rw [hgb, groupCons] at h
      simp only [List.mem_singleton, Prod.mk.injEq] at h
      obtain ⟨rfl, rfl⟩ := h
      simp
    | cons kg t =>
      obtain ⟨k₀, g₀⟩ := kg
      rw [hgb, groupCons] at h
      by_cases hx : x.key = k₀
      · rw [if_pos hx] at h
        rcases List.mem_cons.mp h with hh | ht
        · obtain ⟨rfl, rfl⟩ := Prod.mk.injEq .. ▸ hh
          simp
        · exact ih (hgb ▸ List.mem_cons_of_mem (k₀, g₀) ht)
      · rw [if_neg hx] at h
        rcases List.mem_cons.mp h with hh | ht
        · obtain ⟨rfl, rfl⟩ := Prod.mk.injEq .. ▸ hh
          simp
        · exact ih (hgb ▸ ht)

theorem groupByKey_sublist {l : List RawPos} {k : Key} {g : List RawPos}
    (h : (k, g) ∈ groupByKey l) : g.Sublist l := by
  induction l generalizing k g with
  | nil => simp [groupByKey] at h
  | cons x xs ih =>
    rw [groupByKey] at h
    cases hgb : groupByKey xs with
    | nil =>
      rw [hgb, groupCons] at h
      simp only [List.mem_singleton, Prod.mk.injEq] at h
      obtain ⟨rfl, rfl⟩ := h
      exact (List.nil_sublist xs).cons₂ x
    | cons kg t =>
      obtain ⟨k₀, g₀⟩ := kg
      rw [hgb, groupCons] at h
      by_cases hx : x.key = k₀
      · rw [if_pos hx] at h
        rcases List.mem_cons.mp h with hh | ht
        · obtain ⟨rfl, rfl⟩ := Prod.mk.injEq .. ▸ hh
          exact (ih (hgb ▸ List.mem_cons_self (k, g₀) t)).cons₂ x
        · exact (ih (hgb ▸ List.mem_cons_of_mem (k₀, g₀) ht)).cons x
      · rw [if_neg hx] at h
        rcases List.mem_cons.mp h with hh | ht
        · obtain ⟨rfl, rfl⟩ := Prod.mk.injEq .. ▸ hh
          exact (List.nil_sublist xs).cons₂ x
        · exact (ih (hgb ▸ ht)).cons x

theorem mem_group_of_mem {l : List RawPos} {p : RawPos} (hp : p ∈ l) :
    ∃ k g, (k, g) ∈ groupByKey l ∧ p ∈ g := by
  induction l with
  | nil => simp at hp
  | cons x xs ih =>
    rw [groupByKey]
    cases hgb : groupByKey xs with
    | nil =>
      rcases List.mem_cons.mp hp with rfl | hp'
      · exact ⟨p.key, [p], List.mem_singleton_self _, List.mem_singleton_self p⟩
      · obtain ⟨k, g, hkg, -⟩ := ih hp'
        rw [hgb] at hkg
        simp at hkg
    | cons kg t =>
      obtain ⟨k₀, g₀⟩ := kg
      rw [groupCons]
      by_cases hx : x.key = k₀
      · rw [if_pos hx]
        rcases List.mem_cons.mp hp with rfl | hp'
        · exact ⟨k₀, p :: g₀, List.mem_cons_self _ _, List.mem_cons_self p g₀⟩
        · obtain ⟨k, g, hkg, hpg⟩ := ih hp'
          rw [hgb] at hkg
          rcases List.mem_cons.mp hkg with hh | ht
          · obtain ⟨rfl, rfl⟩ := Prod.mk.injEq .. ▸ hh
            exact ⟨k, x :: g, List.mem_cons_self _ _, List.mem_cons_of_mem x hpg⟩
          · exact ⟨k, g, List.mem_cons_of_mem _ ht, hpg⟩
      · rw [if_neg hx]
        rcases List.mem_cons.mp hp with rfl | hp'
        · exact ⟨p.key, [p], List.mem_cons_self _ _, List.mem_singleton_self p⟩
        · obtain ⟨k, g, hkg, hpg⟩ := ih hp'
          rw [hgb] at hkg
          exact ⟨k, g, List.mem_cons_of_mem _ hkg, hpg⟩

theorem groupByKey_keys_pairwise {l : List RawPos} (hw : List.Pairwise posLt l) :
    List.Pairwise (fun a b : Key × List RawPos => keyLt a.1 b.1 = true) (groupByKey l) := by
  induction l with
  | nil => exact List.Pairwise.nil
  | cons x xs ih =>
    rw [List.pairwise_cons] at hw
    have ihp := ih hw.2
    rw [groupByKey]
    cases hgb : groupByKey xs with
    | nil => simp [groupCons]
    | cons kg t =>
      obtain ⟨k₀, g₀⟩ := kg
      rw [groupCons]
      rw [hgb] at ihp
      have hk₀ : ∃ q ∈ xs, q.key = k₀ := by
        have hmem : (k₀, g₀) ∈ groupByKey xs := hgb ▸ List.mem_cons_self (k₀, g₀) t
        obtain ⟨q, hq⟩ := List.exists_mem_of_ne_nil g₀ (groupByKey_ne_nil hmem)
        exact ⟨q, (groupByKey_sublist hmem).mem hq, groupByKey_key_eq hmem q hq⟩
      by_cases hx : x.key = k₀
      · rw [if_pos hx]
        rw [List.pairwise_cons] at ihp ⊢
        exact ⟨ihp.1, ihp.2⟩
      · rw [if_neg hx]
        rw [List.pairwise_cons]
        refine ⟨?_, ihp⟩
        obtain ⟨q, hq, hqk⟩ := hk₀
        have hlt : keyLt x.key k₀ = true := by
          rcases hw.1 q hq with hkey | ⟨heq, -⟩
          · rw [hqk] at hkey; exact hkey
          · exact absurd (hqk ▸ heq) hx
        intro b hb
        rcases List.mem_cons.mp hb with rfl | hb'
        · exact hlt
        · rw [List.pairwise_cons] at ihp
          exact keyLt_trans hlt (ihp.1 b hb')

theorem runGroups_sound {store : Store} {st : Timestamp} {et : Option Timestamp} {wd : Bool}
    {gs : List (Key × List RawPos)} {ev : ChangeEvent}
    (h : ev ∈ (runGroups store st et wd gs).1) :
    ∃ gs₁ k g gs₂ evs, gs = gs₁ ++ (k, g) :: gs₂ ∧
      scanGroup store st et wd g = .ok evs ∧ ev ∈ evs ∧
      ∀ kg ∈ gs₁, ∃ evs', scanGroup store st et wd kg.2 = .ok evs' := by
  induction gs with
  | nil => simp [runGroups] at h
  | cons kg rest ih =>
    obtain ⟨k₀, g₀⟩ := kg
    rw [runGroups] at h
    cases hs : scanGroup store st et wd g₀ with
    | error e => rw [hs] at h; simp at h
    | ok evs₀ =>
      rw [hs] at h
      rcases List.mem_append.mp h with hl | hr
      · exact ⟨[], k₀, g₀, rest, evs₀, rfl, hs, List.mem_reverse.mp hl, by simp⟩
      · obtain ⟨gs₁, k, g, gs₂, evs, hsplit, hok, hmem, hpre⟩ := ih hr
        refine ⟨(k₀, g₀) :: gs₁, k, g, gs₂, evs, by rw [hsplit, List.cons_append], hok, hmem, ?_⟩
        intro kg hkg
        rcases List.mem_cons.mp hkg with rfl | hkg'
        · exact ⟨evs₀, hs⟩
        · exact hpre kg hkg'

theorem runGroups_complete {store : Store} {st : Timestamp} {et : Option Timestamp} {wd : Bool}
    {gs : List (Key × List RawPos)} {k : Key} {g : List RawPos}
    {evs : List ChangeEvent} {ev : ChangeEvent}
    (hni : ∀ kg ∈ gs, ∀ q ∈ kg.2, isInline q.cell = false)
    (hmem : (k, g) ∈ gs) (hs : scanGroup store st et wd g = .ok evs) (hev : ev ∈ evs) :
    ev ∈ (runGroups store st et wd gs).1 := by
  induction gs with
  | nil => simp at hmem
  | cons kg rest ih =>
    obtain ⟨k₀, g₀⟩ := kg
    obtain ⟨evs₀, hs₀⟩ := @scanGroup_ok_of_no_inline store st et wd g₀
      (hni (k₀, g₀) (List.mem_cons_self _ _))
    rw [runGroups, hs₀]
    rcases List.mem_cons.mp hmem with hh | ht
    · obtain ⟨rfl, rfl⟩ := Prod.mk.injEq .. ▸ hh
      rw [hs₀] at hs
      obtain rfl : evs₀ = evs := Except.ok.inj hs
      exact List.mem_append_left _ (List.mem_reverse.mpr hev)
    · exact List.mem_append_right _
        (ih (fun kg' hkg' => hni kg' (List.mem_cons_of_mem _ hkg')) ht)

theorem runGroups_err_of_inline {store : Store} {st : Timestamp} {et : Option Timestamp}
    {wd : Bool} {gs : List (Key × List RawPos)} {k : Key} {g : List RawPos} {q : RawPos}
    (hmem : (k, g) ∈ gs) (hq : q ∈ g) (hi : isInline q.cell = true) :
    (runGroups store st et wd gs).2 = some (.unsupportedLayout inlineMsg) := by
  induction gs with
  | nil => simp at hmem
  | cons kg rest ih =>
    obtain ⟨k₀, g₀⟩ := kg
    rw [runGroups]
    cases hs : scanGroup store st et wd g₀ with
    | error e => exact congrArg some (scanGroup_error_val hs)
    | ok evs₀ =>
      rcases List.mem_cons.mp hmem with hh | ht
      · obtain ⟨rfl, rfl⟩ := Prod.mk.injEq .. ▸ hh
        rw [scanGroup_error_of_mem_inline hq hi] at hs
        cases hs
      · exact ih ht

theorem runGroups_pairwise {store : Store} {st : Timestamp} {et : Option Timestamp} {wd : Bool}
    {gs : List (Key × List RawPos)}
    (hkeys : List.Pairwise (fun a b : Key × List RawPos => keyLt a.1 b.1 = true) gs)
    (hgood : ∀ kg ∈ gs, (∀ p ∈ kg.2, p.key = kg.1 ∧ intentTsOk p = true) ∧
      List.Pairwise (fun p q : RawPos => p.key = q.key ∧ tsLt q.ts p.ts = true) kg.2) :
    List.Pairwise evLt (runGroups store st et wd gs).1 := by
  induction gs with
  | nil => simp [runGroups]
  | cons kg rest ih =>
    obtain ⟨k₀, g₀⟩ := kg
    rw [List.pairwise_cons] at hkeys
    rw [runGroups]
    cases hs : scanGroup store st et wd g₀ with
    | error e => exact List.Pairwise.nil
    | ok evs₀ =>
      have hg₀ := hgood (k₀, g₀) (List.mem_cons_self _ _)
      have hpw₀ : List.Pairwise
          (fun a b : ChangeEvent => a.key = b.key ∧ tsLt b.ts a.ts = true) evs₀ :=
        scanGroup_pairwise (fun p hp => (hg₀.1 p hp).2) hg₀.2 hs
      have hkey₀ : ∀ ev ∈ evs₀, ev.key = k₀ := by
        intro ev hev
        obtain ⟨p, hp, hp'⟩ := scanGroup_sound hs ev hev
        rw [(emitOne_some_inv hp').1, (hg₀.1 p hp).1]
      rw [List.pairwise_append]
      refine ⟨?_, ih hkeys.2 (fun kg' hkg' => hgood kg' (List.mem_cons_of_mem _ hkg')), ?_⟩
      · rw [List.pairwise_reverse]
        exact hpw₀.imp (fun hab => Or.inr ⟨hab.1.symm, hab.2⟩)
      · intro a ha b hb
        obtain ⟨gs₁, k, g, gs₂, evs, hsplit, hok, hmem, -⟩ := runGroups_sound hb
        have hbkey : b.key = k := by
          obtain ⟨p, hp, hp'⟩ := scanGroup_sound hok b hmem
          have hgd := hgood (k, g) (List.mem_cons_of_mem _ (hsplit ▸
            List.mem_append_right gs₁ (List.mem_cons_self _ _)))
          rw [(emitOne_some_inv hp').1, (hgd.1 p hp).1]
        have hklt : keyLt k₀ k = true := by
          have : (k, g) ∈ rest := hsplit ▸ List.mem_append_right gs₁ (List.mem_cons_self _ _)
          exact hkeys.1 (k, g) this
        exact Or.inl (by rw [hkey₀ a (List.mem_reverse.mp ha), hbkey]; exact hklt)

theorem CatchUpScan_sound {store : Store} {span : Span} {st : Timestamp}
    {et : Option Timestamp} {wd : Bool} {ev : ChangeEvent}
    (h : ev ∈ (CatchUpScan store span st et wd).1) :
    ∃ p, p ∈ store ∧ inSpan span p.key = true ∧
      emitOne store st et wd p = .ok (some ev) := by
  rw [CatchUpScan] at h
  obtain ⟨gs₁, k, g, gs₂, evs, hsplit, hok, hmem, -⟩ := runGroups_sound h
  obtain ⟨p, hp, hp'⟩ := scanGroup_sound hok ev hmem
  have hgmem : (k, g) ∈ groupByKey (store.filter (fun p => inSpan span p.key)) :=
    hsplit ▸ List.mem_append_right gs₁ (List.mem_cons_self _ _)
  have hpf : p ∈ store.filter (fun p => inSpan span p.key) :=
    (groupByKey_sublist hgmem).mem hp
  rw [List.mem_filter] at hpf
  exact ⟨p, hpf.1, hpf.2, hp'⟩

theorem CatchUpScan_complete {store : Store} {span : Span} {st : Timestamp}
    {et : Option Timestamp} {wd : Bool} {p : RawPos} {ev : ChangeEvent}
    (hni : ∀ q ∈ store, inSpan span q.key = true → isInline q.cell = false)
    (hp : p ∈ store) (hs : inSpan span p.key = true)
    (he : emitOne store st et wd p = .ok (some ev)) :
    ev ∈ (CatchUpScan store span st et wd).1 := by
  rw [CatchUpScan]
  have hpf : p ∈ store.filter (fun q => inSpan span q.key) :=
    List.mem_filter.mpr ⟨hp, hs⟩
  obtain ⟨k, g, hkg, hpg⟩ := mem_group_of_mem hpf
  have hnig : ∀ kg ∈ groupByKey (store.filter (fun q => inSpan span q.key)),
      ∀ q ∈ kg.2, isInline q.cell = false := by
    intro kg hkg' q hq
    have hqf := (groupByKey_sublist hkg').mem hq
    rw [List.mem_filter] at hqf
    exact hni q hqf.1 hqf.2
  obtain ⟨evs, hsg⟩ := @scanGroup_ok_of_no_inline store st et wd g
    (hnig (k, g) hkg)
  exact runGroups_complete hnig hkg hsg (scanGroup_complete hpg he hsg)

theorem tsLe_trans {a b c : Timestamp} (h₁ : tsLe a b = true) (h₂ : tsLe b c = true) :
    tsLe a c = true := by
  simp only [tsLe, tsLt, Bool.not_eq_true', Bool.or_eq_false_iff, Bool.and_eq_false_iff,
    decide_eq_false_iff_not] at h₁ h₂ ⊢
  omega

theorem diffStep_skip {k : Key} {refTs : Timestamp} {acc : Option (Timestamp × Bytes)}
    {p : RawPos} (h : ¬(p.key = k ∧ tsLt p.ts refTs = true)) :
    diffStep k refTs acc p = acc := by
  simp [diffStep, h]

theorem diffStep_none_cell {k : Key} {refTs : Timestamp} {acc : Option (Timestamp × Bytes)}
    {p : RawPos} (hc : p.key = k ∧ tsLt p.ts refTs = true)
    (hcb : cellBytes p.cell = none) : diffStep k refTs acc p = acc := by
  simp [diffStep, hc, hcb]

theorem diffStep_new {k : Key} {refTs : Timestamp} {p : RawPos} {v : Bytes}
    (hc : p.key = k ∧ tsLt p.ts refTs = true) (hcb : cellBytes p.cell = some v) :
    diffStep k refTs none p = some (p.ts, v) := by
  simp [diffStep, hc, hcb]

theorem diffStep_better {k : Key} {refTs : Timestamp} {p : RawPos} {v : Bytes}
    {bt₀ : Timestamp} {bv₀ : Bytes}
    (hc : p.key = k ∧ tsLt p.ts refTs = true) (hcb : cellBytes p.cell = some v)
    (hbl : tsLt bt₀ p.ts = true) :
    diffStep k refTs (some (bt₀, bv₀)) p = some (p.ts, v) := by
  simp [diffStep, hc, hcb, hbl]

theorem diffStep_keep {k : Key} {refTs : Timestamp} {p : RawPos} {v : Bytes}
    {bt₀ : Timestamp} {bv₀ : Bytes}
    (hc : p.key = k ∧ tsLt p.ts refTs = true) (hcb : cellBytes p.cell = some v)
    (hbl : tsLt bt₀ p.ts = false) :
    diffStep k refTs (some (bt₀, bv₀)) p = some (bt₀, bv₀) := by
  simp [diffStep, hc, hcb, hbl]

theorem diffFold_none {k : Key} {refTs : Timestamp} :
    ∀ {l : List RawPos} {acc : Option (Timestamp × Bytes)},
    List.foldl (diffStep k refTs) acc l = none →
    acc = none ∧ ∀ r ∈ l, r.key = k → (cellBytes r.cell).isSome = true →
      tsLt r.ts refTs = false := by
  intro l
  induction l with
  | nil =>
    intro acc h
    exact ⟨h, by simp⟩
  | cons p ps ih =>
    intro acc h
    rw [List.foldl_cons] at h
    obtain ⟨hstep, hps⟩ := ih h
    by_cases hcond : p.key = k ∧ tsLt p.ts refTs = true
    · cases hcb : cellBytes p.cell with
      | none =>
        rw [diffStep_none_cell hcond hcb] at hstep
        refine ⟨hstep, ?_⟩
        intro r hr hk hsome
        rcases List.mem_cons.mp hr with rfl | hr'
        · rw [hcb] at hsome; cases hsome
        · exact hps r hr' hk hsome
      | some v =>
        exfalso
        cases hacc : acc with
        | none => rw [hacc, diffStep_new hcond hcb] at hstep; cases hstep
        | some a =>
          obtain ⟨bt₀, bv₀⟩ := a
          cases hbl : tsLt bt₀ p.ts with
          | true => rw [hacc, diffStep_better hcond hcb hbl] at hstep; cases hstep
          | false => rw [hacc, diffStep_keep hcond hcb hbl] at hstep; cases hstep
    · rw [diffStep_skip hcond] at hstep
      refine ⟨hstep, ?_⟩
      intro r hr hk hsome
      rcases List.mem_cons.mp hr with rfl | hr'
      · by_cases hts : tsLt r.ts refTs = true
        · exact absurd ⟨hk, hts⟩ hcond
        · simpa using hts
      · exact hps r hr' hk hsome

theorem diffFold_some {k : Key} {refTs : Timestamp} :
    ∀ {l : List RawPos} {acc : Option (Timestamp × Bytes)} {bt : Timestamp} {bv : Bytes},
    List.foldl (diffStep k refTs) acc l = some (bt, bv) →
    (acc = some (bt, bv) ∨
      ∃ q ∈ l, q.key = k ∧ q.ts = bt ∧ tsLt bt refTs = true ∧ cellBytes q.cell = some bv) ∧
    (∀ r ∈ l, r.key = k → (cellBytes r.cell).isSome = true → tsLt r.ts refTs = true →
      tsLe r.ts bt = true) ∧
    (∀ bt₀ bv₀, acc = some (bt₀, bv₀) → tsLe bt₀ bt = true) := by
  intro l
  induction l with
  | nil =>
    intro acc bt bv h
    refine ⟨Or.inl h, by simp, ?_⟩
    intro bt₀ bv₀ hacc
    rw [hacc] at h
    obtain ⟨rfl, rfl⟩ := Prod.mk.injEq .. ▸ Option.some.inj h
    exact tsLe_refl _
  | cons p ps ih =>
    intro acc bt bv h
    rw [List.foldl_cons] at h
    obtain ⟨hA, hB, hC⟩ := ih h
    by_cases hcond : p.key = k ∧ tsLt p.ts refTs = true
    · cases hcb : cellBytes p.cell with
      | none =>
        rw [diffStep_none_cell hcond hcb] at hA hC
        refine ⟨?_, ?_, hC⟩
        · rcases hA with hl | ⟨q, hq, hrest⟩
          · exact Or.inl hl
          · exact Or.inr ⟨q, List.mem_cons_of_mem p hq, hrest⟩
        · intro r hr hk hsome hts
          rcases List.mem_cons.mp hr with rfl | hr'
          · rw [hcb] at hsome; cases hsome
          · exact hB r hr' hk hsome hts
      | some v =>
        have hple : tsLe p.ts bt = true := by
          cases hacc : acc with
          | none => exact hC p.ts v (by rw [hacc, diffStep_new hcond hcb])
          | some a =>
            obtain ⟨bt₀, bv₀⟩ := a
            cases hbl : tsLt bt₀ p.ts with
            | true => exact hC p.ts v (by rw [hacc, diffStep_better hcond hcb hbl])
            | false =>
              exact tsLe_trans (tsLe_total_of_not_lt hbl)
                (hC bt₀ bv₀ (by rw [hacc, diffStep_keep hcond hcb hbl]))
        refine ⟨?_, ?_, ?_⟩
        · cases hacc : acc with
          | none =>
            rw [hacc, diffStep_new hcond hcb] at hA
            rcases hA with hl | ⟨q, hq, hrest⟩
            · obtain ⟨rfl, rfl⟩ := Prod.mk.injEq .. ▸ Option.some.inj hl
              exact Or.inr ⟨p, List.mem_cons_self p ps, hcond.1, rfl, hcond.2, hcb⟩
            · exact Or.inr ⟨q, List.mem_cons_of_mem p hq, hrest⟩
          | some a =>
            obtain ⟨bt₀, bv₀⟩ := a
            cases hbl : tsLt bt₀ p.ts with
            | true =>
              rw [hacc, diffStep_better hcond hcb hbl] at hA
              rcases hA with hl | ⟨q, hq, hrest⟩
              · obtain ⟨rfl, rfl⟩ := Prod.mk.injEq .. ▸ Option.some.inj hl
                exact Or.inr ⟨p, List.mem_cons_self p ps, hcond.1, rfl, hcond.2, hcb⟩
              · exact Or.inr ⟨q, List.mem_cons_of_mem p hq, hrest⟩
            | false =>
              rw [hacc, diffStep_keep hcond hcb hbl] at hA
              rcases hA with hl | ⟨q, hq, hrest⟩
              · exact Or.inl hl
              · exact Or.inr ⟨q, List.mem_cons_of_mem p hq, hrest⟩
        · intro r hr hk hsome hts
          rcases List.mem_cons.mp hr with rfl | hr'
          · exact hple
          · exact hB r hr' hk hsome hts
        · intro bt₀ bv₀ hacc
          cases hbl : tsLt bt₀ p.ts with
          | true =>
            exact tsLe_trans (tsLe_of_tsLt hbl)
              (hC p.ts v (by rw [hacc, diffStep_better hcond hcb hbl]))
          | false => exact hC bt₀ bv₀ (by rw [hacc, diffStep_keep hcond hcb hbl])
    · rw [diffStep_skip hcond] at hA hC
      refine ⟨?_, ?_, hC⟩
      · rcases hA with hl | ⟨q, hq, hrest⟩
        · exact Or.inl hl
        · exact Or.inr ⟨q, List.mem_cons_of_mem p hq, hrest⟩
      · intro r hr hk hsome hts
        rcases List.mem_cons.mp hr with rfl | hr'
        · exact absurd ⟨hk, hts⟩ hcond
        · exact hB r hr' hk hsome hts

theorem diffResolve_none {store : Store} {k : Key} {refTs : Timestamp}
    (h : diffResolve store k refTs = none) :
    ∀ r ∈ store, r.key = k → (cellBytes r.cell).isSome = true →
      tsLt r.ts refTs = false :=
  (diffFold_none h).2

theorem diffResolve_some {store : Store} {k : Key} {refTs : Timestamp}
    {bt : Timestamp} {bv : Bytes} (h : diffResolve store k refTs = some (bt, bv)) :
    (∃ q ∈ store, q.key = k ∧ q.ts = bt ∧ tsLt bt refTs = true ∧
      cellBytes q.cell = some bv) ∧
    ∀ r ∈ store, r.key = k → (cellBytes r.cell).isSome = true →
      tsLt r.ts refTs = true → tsLe r.ts bt = true := by
  obtain ⟨hA, hB, -⟩ := diffFold_some h
  rcases hA with hl | hex
  · cases hl
  · exact ⟨hex, hB⟩

/-- C1: for a store containing a committed value at key `b` at ts 1100, an
intent at key `d` at ts 990 owned by an unrelated (non-omitted) transaction,
and a committed value at key `e` at ts 1100, a CatchUpScan with cutoff
ts 1000 and withDiff true succeeds and emits events for exactly the keys
b and e — the out-of-window intent does not corrupt diff resolution, which
ignores the scan's lower time bound. -/
theorem scenarioB_out_of_window_intent :
    (CatchUpScan scenarioBStore scenarioBSpan ⟨1000, 0⟩ none true).2 = none ∧
    ((CatchUpScan scenarioBStore scenarioBSpan ⟨1000, 0⟩ none true).1.map
      ChangeEvent.key) = [[98], [101]] := by decide

/-- C2: an intent whose owning transaction does not have the omit-from-feeds
flag is treated as committed at the transaction's write timestamp: when that
timestamp lies in the scan window (and no inline cell aborts the scan in the
span), an event with the intent's key, write timestamp and provisional value
appears in the emitted sequence. -/
theorem intent_emitted_as_committed
    {store : Store} {span : Span} {st : Timestamp} {et : Option Timestamp} {wd : Bool}
    {p : RawPos} {txn : TxnMeta} {prov : Bytes}
    (hni : ∀ q ∈ store, inSpan span q.key = true → isInline q.cell = false)
    (hp : p ∈ store) (hs : inSpan span p.key = true)
    (hc : p.cell = .intent txn prov) (ho : txn.omitInRangefeeds = false)
    (hw : inWindow st et txn.writeTs = true) :
    ∃ ev ∈ (CatchUpScan store span st et wd).1,
      ev.key = p.key ∧ ev.ts = txn.writeTs ∧ ev.value = prov := by
  have he : emitOne store st et wd p = .ok (some ⟨p.key, prov, txn.writeTs,
      if wd then (diffResolve store p.key txn.writeTs).map Prod.snd else none, tsZero⟩) := by
    simp [emitOne, hc, ho, hw]
  exact ⟨_, CatchUpScan_complete hni hp hs he, rfl, rfl, rfl⟩

/-- Closed instance of C2: a lone in-window intent of a non-omitted
transaction is emitted. -/
theorem intent_emitted_as_committed_witness :
    ((∀ q ∈ ([⟨[97], ⟨5, 0⟩, .intent ⟨1, 1, ⟨5, 0⟩, false⟩ [7]⟩] : Store),
        inSpan ⟨[], [255]⟩ q.key = true → isInline q.cell = false) ∧
      (⟨[97], ⟨5, 0⟩, .intent ⟨1, 1, ⟨5, 0⟩, false⟩ [7]⟩ : RawPos) ∈
        ([⟨[97], ⟨5, 0⟩, .intent ⟨1, 1, ⟨5, 0⟩, false⟩ [7]⟩] : Store) ∧
      inWindow ⟨1, 0⟩ none ⟨5, 0⟩ = true) ∧
    ∃ ev ∈ (CatchUpScan [⟨[97], ⟨5, 0⟩, .intent ⟨1, 1, ⟨5, 0⟩, false⟩ [7]⟩]
        ⟨[], [255]⟩ ⟨1, 0⟩ none false).1,
      ev.key = [97] ∧ ev.ts = ⟨5, 0⟩ ∧ ev.value = [7] :=
  ⟨⟨by decide, by decide, by decide⟩,
    @intent_emitted_as_committed [⟨[97], ⟨5, 0⟩, .intent ⟨1, 1, ⟨5, 0⟩, false⟩ [7]⟩]
      ⟨[], [255]⟩ ⟨1, 0⟩ none false ⟨[97], ⟨5, 0⟩, .intent ⟨1, 1, ⟨5, 0⟩, false⟩ [7]⟩
      ⟨1, 1, ⟨5, 0⟩, false⟩ [7] (by decide) (by decide) (by decide) rfl rfl (by decide)⟩

/-- C3: if a scanned position of the span holds an inline cell, the scan
aborts with the layout error whose message contains "unexpected inline
value", and no event is emitted at or past the inline key (in a store
presented in raw iteration order). -/
theorem inline_aborts_scan
    {store : Store} {span : Span} {st : Timestamp} {et : Option Timestamp} {wd : Bool}
    {p : RawPos}
    (hord : List.Pairwise posLt store)
    (hp : p ∈ store) (hs : inSpan span p.key = true) (hi : isInline p.cell = true) :
    (CatchUpScan store span st et wd).2 = some (.unsupportedLayout inlineMsg) ∧
    containsStr "unexpected inline value" inlineMsg ∧
    ∀ ev ∈ (CatchUpScan store span st et wd).1, keyLt ev.key p.key = true := by
  have hpf : p ∈ store.filter (fun r => inSpan span r.key) := List.mem_filter.mpr ⟨hp, hs⟩
  obtain ⟨kp, gp, hkgp, hpgp⟩ := mem_group_of_mem hpf
  have hkp : kp = p.key := (groupByKey_key_eq hkgp p hpgp).symm
  refine ⟨?_, List.infix_refl _, ?_⟩
  · rw [CatchUpScan]
    exact runGroups_err_of_inline hkgp hpgp hi
  · intro ev hev
    rw [CatchUpScan] at hev
    obtain ⟨gs₁, kev, gev, gs₂, evs, hsplit, hok, hmem, hpre⟩ := runGroups_sound hev
    have hevk : ev.key = kev := by
      obtain ⟨q, hq, hq'⟩ := scanGroup_sound hok ev hmem
      rw [(emitOne_some_inv hq').1]
      exact groupByKey_key_eq (hsplit ▸ List.mem_append_right gs₁
        (List.mem_cons_self _ _)) q hq
    have hperr : scanGroup store st et wd gp = .error (.unsupportedLayout inlineMsg) :=
      scanGroup_error_of_mem_inline hpgp hi
    have hpmem := hkgp
    rw [hsplit] at hpmem
    rcases List.mem_append.mp hpmem with hin₁ | hin₂
    · obtain ⟨evs', hok'⟩ := hpre (kp, gp) hin₁
      rw [hperr] at hok'
      cases hok'
    · rcases List.mem_cons.mp hin₂ with hh | ht
      · obtain ⟨rfl, rfl⟩ := Prod.mk.injEq .. ▸ hh
        rw [hperr] at hok
        cases hok
      · have hfil : List.Pairwise posLt (store.filter (fun r => inSpan span r.key)) :=
          hord.sublist (List.filter_sublist store)
        have hkeys := groupByKey_keys_pairwise hfil
        rw [hsplit, List.pairwise_append] at hkeys
        have := (List.pairwise_cons.mp hkeys.2.1).1 (kp, gp) ht
        rw [hevk, ← hkp]
        exact this

/-- Closed instance of C3: spec Scenario A, an inline value aborts the scan
with the documented message. -/
theorem inline_aborts_scan_witness :
    (List.Pairwise posLt ([⟨[105], ⟨0, 0⟩, .inline [9]⟩] : Store) ∧
      (⟨[105], ⟨0, 0⟩, .inline [9]⟩ : RawPos) ∈ ([⟨[105], ⟨0, 0⟩, .inline [9]⟩] : Store)) ∧
    (CatchUpScan [⟨[105], ⟨0, 0⟩, .inline [9]⟩] ⟨[], [255]⟩ ⟨0, 0⟩ none false).2 =
      some (.unsupportedLayout inlineMsg) := by
  refine ⟨⟨by decide, by decide⟩, ?_⟩
  exact (@inline_aborts_scan [⟨[105], ⟨0, 0⟩, .inline [9]⟩] ⟨[], [255]⟩ ⟨0, 0⟩ none false
    ⟨[105], ⟨0, 0⟩, .inline [9]⟩ (by decide) (by decide) (by decide) (by decide)).1

/-- C4: no emitted event carries a timestamp at or below the scan's exclusive
start timestamp. -/
theorem no_event_at_or_below_start
    {store : Store} {span : Span} {st : Timestamp} {et : Option Timestamp} {wd : Bool}
    {ev : ChangeEvent} (h : ev ∈ (CatchUpScan store span st et wd).1) :
    tsLe ev.ts st = false := by
  obtain ⟨p, -, -, hp'⟩ := CatchUpScan_sound h
  have hw := (emitOne_some_inv hp').2.1
  simp only [inWindow, Bool.and_eq_true] at hw
  simp [tsLe, hw.1]

/-- Closed instance of C4: a concrete emitted event lies strictly above the
start timestamp. -/
theorem no_event_at_or_below_start_witness :
    (⟨[97], [7], ⟨5, 0⟩, none, ⟨0, 0⟩⟩ : ChangeEvent) ∈
      (CatchUpScan [⟨[97], ⟨5, 0⟩, .value [7] false⟩] ⟨[], [255]⟩ ⟨1, 0⟩ none false).1 ∧
    tsLe (⟨5, 0⟩ : Timestamp) ⟨1, 0⟩ = false :=
  ⟨by decide, @no_event_at_or_below_start [⟨[97], ⟨5, 0⟩, .value [7] false⟩]
    ⟨[], [255]⟩ ⟨1, 0⟩ none false ⟨[97], [7], ⟨5, 0⟩, none, ⟨0, 0⟩⟩ (by decide)⟩

/-- C5: a position whose write is excluded from feeds — an intent of an
omitted transaction, or the committed value such an intent resolved to —
produces no event for its (key, timestamp), and the scan advances past it
without error (its classification is a plain skip). -/
theorem omitted_write_never_emitted
    {store : Store} {span : Span} {st : Timestamp} {et : Option Timestamp} {wd : Bool}
    {p : RawPos}
    (hord : List.Pairwise posLt store)
    (hio : ∀ q ∈ store, intentTsOk q = true)
    (hp : p ∈ store) (ho : isOmitted p = true) :
    emitOne store st et wd p = .ok none ∧
    ∀ ev ∈ (CatchUpScan store span st et wd).1, ¬(ev.key = p.key ∧ ev.ts = p.ts) := by
  refine ⟨emitOne_skips_omitted ho, ?_⟩
  rintro ev hev ⟨hk, ht⟩
  obtain ⟨q, hq, -, hq'⟩ := CatchUpScan_sound hev
  obtain ⟨hqk, hqt⟩ := emitOne_key_ts hq' (hio q hq)
  have hne : q ≠ p := by
    intro heq
    have hqo := (emitOne_some_inv hq').2.2.2.2.1
    rw [heq, ho] at hqo
    cases hqo
  have hkeq : q.key = p.key := hqk.symm.trans hk
  have hteq : q.ts = p.ts := hqt.symm.trans ht
  have hsymm : List.Pairwise (fun a b : RawPos => posLt a b ∨ posLt b a) store :=
    hord.imp Or.inl
  have hrel := hsymm.forall (fun a b hab => hab.symm) hq hp hne
  rcases hrel with hqp | hpq
  · rcases hqp with hklt | ⟨-, hts⟩
    · rw [hkeq, keyLt_irrefl] at hklt; cases hklt
    · rw [hteq, tsLt_irrefl] at hts; cases hts
  · rcases hpq with hklt | ⟨-, hts⟩
    · rw [hkeq, keyLt_irrefl] at hklt; cases hklt
    · rw [hteq, tsLt_irrefl] at hts; cases hts

/-- Closed instance of C5: spec Scenario D, a committed value carrying the
omit bit is skipped while the rest of the key's history is still scanned. -/
theorem omitted_write_never_emitted_witness :
    (List.Pairwise posLt
        ([⟨[97], ⟨5, 0⟩, .value [9] true⟩, ⟨[97], ⟨3, 0⟩, .value [8] false⟩] : Store) ∧
      isOmitted (⟨[97], ⟨5, 0⟩, .value [9] true⟩ : RawPos) = true) ∧
    (emitOne [⟨[97], ⟨5, 0⟩, .value [9] true⟩, ⟨[97], ⟨3, 0⟩, .value [8] false⟩]
        ⟨1, 0⟩ none false ⟨[97], ⟨5, 0⟩, .value [9] true⟩ = .ok none ∧
      ∀ ev ∈ (CatchUpScan
          [⟨[97], ⟨5, 0⟩, .value [9] true⟩, ⟨[97], ⟨3, 0⟩, .value [8] false⟩]
          ⟨[], [255]⟩ ⟨1, 0⟩ none false).1,
        ¬(ev.key = [97] ∧ ev.ts = ⟨5, 0⟩)) :=
  ⟨⟨by decide, by decide⟩,
    @omitted_write_never_emitted
      [⟨[97], ⟨5, 0⟩, .value [9] true⟩, ⟨[97], ⟨3, 0⟩, .value [8] false⟩]
      ⟨[], [255]⟩ ⟨1, 0⟩ none false ⟨[97], ⟨5, 0⟩, .value [9] true⟩
      (by decide) (by decide) (by decide) (by decide)⟩

/-- C6: over a store presented in raw iteration order with intents at their
write timestamps, the emitted event sequence is ascending by key, strictly
ascending by timestamp within one key, and no (key, timestamp) pair repeats
(all three captured by pairwise `evLt`). -/
theorem events_sorted_and_unique
    {store : Store} {span : Span} {st : Timestamp} {et : Option Timestamp} {wd : Bool}
    (hord : List.Pairwise posLt store)
    (hio : ∀ q ∈ store, intentTsOk q = true) :
    List.Pairwise evLt (CatchUpScan store span st et wd).1 := by
  rw [CatchUpScan]
  have hwf : List.Pairwise posLt (store.filter (fun p => inSpan span p.key)) :=
    hord.sublist (List.filter_sublist store)
  apply runGroups_pairwise (groupByKey_keys_pairwise hwf)
  intro kg hkg
  obtain ⟨k, g⟩ := kg
  have hkeq := groupByKey_key_eq hkg
  have hsubl := groupByKey_sublist hkg
  refine ⟨?_, ?_⟩
  · intro q hq
    refine ⟨hkeq q hq, hio q ?_⟩
    have hmf := hsubl.mem hq
    rw [List.mem_filter] at hmf
    exact hmf.1
  · have hsub : List.Pairwise posLt g := hwf.sublist hsubl
    refine hsub.imp_of_mem ?_
    intro a b ha hb hab
    rcases hab with hklt | ⟨heq, hts⟩
    · rw [hkeq a ha, hkeq b hb, keyLt_irrefl] at hklt
      cases hklt
    · exact ⟨heq, hts⟩

/-- Closed instance of C6: the Scenario B store's events come out pairwise
ordered. -/
theorem events_sorted_and_unique_witness :
    (List.Pairwise posLt scenarioBStore ∧
      ∀ q ∈ scenarioBStore, intentTsOk q = true) ∧
    List.Pairwise evLt (CatchUpScan scenarioBStore scenarioBSpan ⟨1000, 0⟩ none true).1 :=
  ⟨⟨by decide, by decide⟩,
    @events_sorted_and_unique scenarioBStore scenarioBSpan ⟨1000, 0⟩ none true
      (by decide) (by decide)⟩

/-- C7: with withDiff true, every emitted event's previous value is the
value of the nearest strictly-older version of the same key — older intents
resolve to their provisional bytes with no omit filtering, and no time lower
bound applies — or absent when no strictly-older version exists. -/
theorem withDiff_prev_is_nearest_older
    {store : Store} {span : Span} {st : Timestamp} {et : Option Timestamp}
    {ev : ChangeEvent} (h : ev ∈ (CatchUpScan store span st et true).1) :
    (∀ v, ev.prevValue = some v →
      ∃ q, q ∈ store ∧ q.key = ev.key ∧ tsLt q.ts ev.ts = true ∧
        cellBytes q.cell = some v ∧
        ∀ r ∈ store, r.key = ev.key → (cellBytes r.cell).isSome = true →
          tsLt r.ts ev.ts = true → tsLe r.ts q.ts = true) ∧
    (ev.prevValue = none →
      ∀ r ∈ store, r.key = ev.key → (cellBytes r.cell).isSome = true →
        tsLt r.ts ev.ts = false) := by
  obtain ⟨p, -, -, hp'⟩ := CatchUpScan_sound h
  obtain ⟨hk, -, -, hprev, -, -⟩ := emitOne_some_inv hp'
  rw [if_pos rfl, ← hk] at hprev
  cases hdr : diffResolve store ev.key ev.ts with
  | none =>
    rw [hdr] at hprev
    refine ⟨?_, fun _ => diffResolve_none hdr⟩
    intro v hv
    rw [hv] at hprev
    cases hprev
  | some a =>
    obtain ⟨bt, bv⟩ := a
    rw [hdr] at hprev
    obtain ⟨⟨q, hq, hqk, hqts, hbtlt, hqcell⟩, hmax⟩ := diffResolve_some hdr
    refine ⟨?_, ?_⟩
    · intro v hv
      rw [hprev] at hv
      obtain rfl : bv = v := Option.some.inj hv
      exact ⟨q, hq, hqk, hqts ▸ hbtlt, hqcell,
        fun r hr hrk hrs hrt => hqts ▸ hmax r hr hrk hrs hrt⟩
    · intro h0
      rw [h0] at hprev
      cases hprev

/-- Closed instance of C7: the emitted version at ts 5 carries the ts 3
version's bytes as previous value. -/
theorem withDiff_prev_is_nearest_older_witness :
    (⟨[97], [9], ⟨5, 0⟩, some [8], ⟨0, 0⟩⟩ : ChangeEvent) ∈
      (CatchUpScan [⟨[97], ⟨5, 0⟩, .value [9] false⟩, ⟨[97], ⟨3, 0⟩, .value [8] false⟩]
        ⟨[], [255]⟩ ⟨4, 0⟩ none true).1 ∧
    (∀ v, (some [8] : Option Bytes) = some v →
      ∃ q, q ∈ ([⟨[97], ⟨5, 0⟩, .value [9] false⟩,
          ⟨[97], ⟨3, 0⟩, .value [8] false⟩] : Store) ∧ q.key = [97] ∧
        tsLt q.ts ⟨5, 0⟩ = true ∧ cellBytes q.cell = some v ∧
        ∀ r ∈ ([⟨[97], ⟨5, 0⟩, .value [9] false⟩,
            ⟨[97], ⟨3, 0⟩, .value [8] false⟩] : Store), r.key = [97] →
          (cellBytes r.cell).isSome = true → tsLt r.ts ⟨5, 0⟩ = true →
            tsLe r.ts q.ts = true) :=
  ⟨by decide,
    (@withDiff_prev_is_nearest_older
      [⟨[97], ⟨5, 0⟩, .value [9] false⟩, ⟨[97], ⟨3, 0⟩, .value [8] false⟩]
      ⟨[], [255]⟩ ⟨4, 0⟩ none ⟨[97], [9], ⟨5, 0⟩, some [8], ⟨0, 0⟩⟩ (by decide)).1⟩

/-- C8: with withDiff false, every emitted event has no previous-value bytes
and a zero previous timestamp. -/
theorem withoutDiff_prev_empty
    {store : Store} {span : Span} {st : Timestamp} {et : Option Timestamp}
    {ev : ChangeEvent} (h : ev ∈ (CatchUpScan store span st et false).1) :
    ev.prevValue = none ∧ ev.prevTs = tsZero := by
  obtain ⟨p, -, -, hp'⟩ := CatchUpScan_sound h
  obtain ⟨-, -, hpts, hprev, -, -⟩ := emitOne_some_inv hp'
  exact ⟨by simpa using hprev, hpts⟩

/-- Closed instance of C8: a diffless scan's event has empty previous value
and zero previous timestamp. -/
theorem withoutDiff_prev_empty_witness :
    (⟨[98], [6], ⟨7, 0⟩, none, ⟨0, 0⟩⟩ : ChangeEvent) ∈
      (CatchUpScan [⟨[98], ⟨7, 0⟩, .value [6] false⟩] ⟨[], [255]⟩ ⟨2, 0⟩ none false).1 ∧
    ((⟨[98], [6], ⟨7, 0⟩, none, ⟨0, 0⟩⟩ : ChangeEvent).prevValue = none ∧
      (⟨[98], [6], ⟨7, 0⟩, none, ⟨0, 0⟩⟩ : ChangeEvent).prevTs = tsZero) :=
  ⟨by decide, @withoutDiff_prev_empty [⟨[98], ⟨7, 0⟩, .value [6] false⟩]
    ⟨[], [255]⟩ ⟨2, 0⟩ none ⟨[98], [6], ⟨7, 0⟩, none, ⟨0, 0⟩⟩ (by decide)⟩

end CatchUp

namespace Gcloud

/-- Modelled from Go's `unicode.IsDigit` (category Nd), restricted to code
points below 0x100 where the only Nd characters are the ASCII digits; the
theorems below only evaluate it there. -/
def goIsDigit (c : Nat) : Bool := decide (48 ≤ c ∧ c ≤ 57)

/-- Modelled from Go's `unicode.IsLetter`, restricted to the ASCII letters
and the Latin-1 letter block 0xC0-0xFF (minus the multiplication and
division signs); the theorems below only evaluate it on ASCII and on 0xE9. -/
def goIsLetter (c : Nat) : Bool :=
  decide (65 ≤ c ∧ c ≤ 90) || decide (97 ≤ c ∧ c ≤ 122) ||
    decide (192 ≤ c ∧ c ≤ 255 ∧ c ≠ 215 ∧ c ≠ 247)

/-- Modelled from Go's `unicode.ToLower` on the same restricted range:
ASCII uppercase and Latin-1 uppercase (0xC0-0xDE minus 0xD7) shift by 32,
everything else below 0x100 maps to itself. -/
def goToLower (c : Nat) : Nat :=
  if 65 ≤ c ∧ c ≤ 90 then c + 32
  else if 192 ≤ c ∧ c ≤ 222 ∧ c ≠ 215 then c + 32
  else c

/-- UTF-8 encoded length of a Unicode scalar value, as Go's `range` over a
string advances its byte index. -/
def utf8Width (c : Nat) : Nat :=
  if c < 128 then 1 else if c < 2048 then 2 else if c < 65536 then 3 else 4

/-- The loop body of serializeLabel in gcloud.go: a character other than
letter, digit, underscore and hyphen becomes an underscore, everything
else is lowercased. -/
def labelChar (c : Nat) : Nat :=
  if c ≠ 95 ∧ c ≠ 45 ∧ goIsDigit c = false ∧ goIsLetter c = false then 95
  else goToLower c

/-- The write loop of serializeLabel: Go's `for idx, c := range s` yields
each rune with its byte offset, and the loop writes the transformed rune
into the output rune slice at that byte offset. -/
def writeRunes : List Nat → Nat → List Nat → List Nat
  | [], _, out => out
  | c :: cs, idx, out => writeRunes cs (idx + utf8Width c) (out.set idx (labelChar c))

/-- serializeLabel from gcloud.go: `make([]rune, len(s))` allocates one rune
slot per BYTE of s (zero-initialised), the range loop writes transformed
runes at byte offsets, and the slice is returned as a string.  Strings are
embedded as their lists of Unicode scalar values. -/
def serializeLabel (s : List Nat) : List Nat :=
  writeRunes s 0 (List.replicate ((s.map utf8Width).sum) 0)

/-- The claim's per-character description: letters, digits, underscore and
hyphen appear lowercased in place, every other character becomes an
underscore. -/
def labelCharSpec (c : Nat) : Nat :=
  if goIsLetter c = true ∨ goIsDigit c = true ∨ c = 95 ∨ c = 45 then goToLower c
  else 95

theorem labelChar_eq_spec (c : Nat) : labelChar c = labelCharSpec c := by
  rw [labelChar, labelCharSpec]
  by_cases h : goIsLetter c = true ∨ goIsDigit c = true ∨ c = 95 ∨ c = 45
  · rw [if_pos h, if_neg]
    rintro ⟨h95, h45, hd, hl⟩
    rcases h with h | h | h | h
    · rw [h] at hl; cases hl
    · rw [h] at hd; cases hd
    · exact h95 h
    · exact h45 h
  · rw [if_neg h, if_pos]
    push_neg at h
    refine ⟨h.2.2.1, h.2.2.2, ?_, ?_⟩
    · cases hd : goIsDigit c with
      | false => rfl
      | true => exact absurd hd h.2.1
    · cases hl : goIsLetter c with
      | false => rfl
      | true => exact absurd hl h.1

theorem set_append_length {α : Type} {l₁ l₂ : List α} {a : α} :
    (l₁ ++ l₂).set l₁.length a = l₁ ++ l₂.set 0 a := by
  induction l₁ with
  | nil => simp
  | cons x xs ih => simp [List.set, ih]

theorem writeRunes_eq {s : List Nat} (h : ∀ c ∈ s, utf8Width c = 1) :
    ∀ done : List Nat,
    writeRunes s done.length (done ++ List.replicate s.length 0) =
      done ++ s.map labelChar := by
  induction s with
  | nil => intro done; simp [writeRunes]
  | cons c cs ih =>
    intro done
    rw [writeRunes, h c (List.mem_cons_self c cs)]
    have hset : (done ++ List.replicate (c :: cs).length 0).set done.length (labelChar c)
        = (done ++ [labelChar c]) ++ List.replicate cs.length 0 := by
      rw [List.length_cons, List.replicate_succ, set_append_length]
      simp [List.set]
    rw [hset]
    have hlen : done.length + 1 = (done ++ [labelChar c]).length := by
      simp
    rw [hlen, ih (fun d hd => h d (List.mem_cons_of_mem c hd)) (done ++ [labelChar c])]
    simp

theorem sum_widths_ascii {s : List Nat} (h : ∀ c ∈ s, c < 128) :
    (s.map utf8Width).sum = s.length := by
  induction s with
  | nil => rfl
  | cons c cs ih =>
    have hc : utf8Width c = 1 := by
      rw [utf8Width, if_pos (h c (List.mem_cons_self c cs))]
    simp [hc, ih (fun d hd => h d (List.mem_cons_of_mem c hd)), Nat.add_comm]

/-- C9 (amended): for ASCII input, serializeLabel keeps the length and maps
each character in place — letters, digits, underscore and hyphen are
lowercased, everything else becomes an underscore. -/
theorem serializeLabel_ascii_spec {s : List Nat} (h : ∀ c ∈ s, c < 128) :
    serializeLabel s = s.map labelCharSpec := by
  have hw : ∀ c ∈ s, utf8Width c = 1 := fun c hc => by
    rw [utf8Width, if_pos (h c hc)]
  rw [serializeLabel, sum_widths_ascii h]
  have hmain := writeRunes_eq hw []
  simp only [List.length_nil, List.nil_append] at hmain
  rw [hmain]
  exact List.map_congr_left fun c _ => labelChar_eq_spec c

/-- Closed instance of the amended C9 on an ASCII label. -/
theorem serializeLabel_ascii_spec_witness :
    (∀ c ∈ ([65, 98, 95, 57, 45, 33] : List Nat), c < 128) ∧
    serializeLabel [65, 98, 95, 57, 45, 33] =
      ([65, 98, 95, 57, 45, 33] : List Nat).map labelCharSpec :=
  ⟨by decide, serializeLabel_ascii_spec (by decide)⟩

/-- C9 counterexample: on the one-character input é (U+00E9, two UTF-8
bytes) the output has two characters, not one — the claim's "exactly as
many characters as s" fails for non-ASCII input. -/
theorem serializeLabel_multibyte_counterexample :
    (serializeLabel [233]).length ≠ ([233] : List Nat).length := by decide

/-- ASCII digit test for the regexp character class \d. -/
def isDigitCh (c : Nat) : Bool := decide (48 ≤ c ∧ c ≤ 57)

/-- ASCII lowercase test for the regexp character class [a-z]. -/
def isLowerCh (c : Nat) : Bool := decide (97 ≤ c ∧ c ≤ 122)

/-- Maximal run of digits and the remaining input (greedy \d+). -/
def takeDigits : List Nat → List Nat × List Nat
  | [] => ([], [])
  | c :: cs =>
    if isDigitCh c then
      (c :: (takeDigits cs).1, (takeDigits cs).2)
    else ([], c :: cs)

/-- Maximal run of lowercase letters and the remaining input ([a-z]+). -/
def takeLower : List Nat → List Nat × List Nat
  | [] => ([], [])
  | c :: cs =>
    if isLowerCh c then
      (c :: (takeLower cs).1, (takeLower cs).2)
    else ([], c :: cs)

/-- Deterministic matcher for AllowedLocalSSDCount's anchored regexp
`([cn])(\d+)(?:d)?-[a-z]+-(\d+)(?:-\d+)?` over the whole string.  Greedy
maximal munch is forced at every quantifier because each run's follower
(the optional d, a hyphen, or the end) lies outside the run's character
class, so this parser succeeds exactly when the regexp matches; it
returns the three capture groups (family letter, family digits, cpu
digits). -/
def machineTypeMatch (s : List Nat) : Option (Nat × List Nat × List Nat) :=
  match s with
  | [] => none
  | c :: rest =>
    if c = 99 ∨ c = 110 then
      match takeDigits rest with
      | ([], _) => none
      | (fd :: fds, r1) =>
        match (match r1 with | 100 :: tl => tl | other => other) with
        | 45 :: r3 =>
          match takeLower r3 with
          | ([], _) => none
          | (_ :: _, r4) =>
            match r4 with
            | 45 :: r5 =>
              match takeDigits r5 with
              | ([], _) => none
              | (cd :: cds, r6) =>
                match r6 with
                | [] => some (c, fd :: fds, cd :: cds)
                | 45 :: r7 =>
                  match takeDigits r7 with
                  | ([], _) => none
                  | (_ :: _, []) => some (c, fd :: fds, cd :: cds)
                  | (_ :: _, _ :: _) => none
                | _ => none
            | _ => none
        | _ => none
    else none

/-- Value of a digit run. -/
def digitsToNat (ds : List Nat) : Nat :=
  ds.foldl (fun acc c => acc * 10 + (c - 48)) 0

/-- Modelled from Go's strconv.Atoi on a 64-bit platform, applied to the
digit-only capture group: parses the number, failing when it overflows
int64. -/
def goAtoi (ds : List Nat) : Except String Nat :=
  if digitsToNat ds ≤ 9223372036854775807 then .ok (digitsToNat ds)
  else .error "value out of range"

/-- AllowedLocalSSDCount from gcloud.go: given a machine type string, the
allowed numbers of local SSDs in the source's order, or an error for
unsupported machine types.  Only the n1, n2 (and n2d, via the regexp's
optional d) and c2 families are supported; the family is the letter
concatenated with the family digits, compared as a string. -/
def AllowedLocalSSDCount (machineType : List Nat) : Except String (List Nat) :=
  match machineTypeMatch machineType with
  | some (letter, fds, cds) =>
    match goAtoi cds with
    | .error e => .error e
    | .ok numCpus =>
      if letter = 110 ∧ fds = [49] then .ok [1, 2, 3, 4, 5, 6, 7, 8, 16, 24]
      else if letter = 110 ∧ fds = [50] then
        if numCpus ≤ 10 then .ok [1, 2, 4, 8, 16, 24]
        else if numCpus ≤ 20 then .ok [2, 4, 8, 16, 24]
        else if numCpus ≤ 40 then .ok [4, 8, 16, 24]
        else if numCpus ≤ 80 then .ok [8, 16, 24]
        else if numCpus ≤ 128 then .ok [16, 24]
        else .error "unsupported machine type"
      else if letter = 99 ∧ fds = [50] then
        if numCpus ≤ 8 then .ok [1, 2, 4, 8]
        else if numCpus ≤ 16 then .ok [2, 4, 8]
        else if numCpus ≤ 30 then .ok [4, 8]
        else if numCpus ≤ 60 then .ok [8]
        else .error "unsupported machine type"
      else .error "unsupported machine type"
  | none => .error "unsupported machine type"

/-- The claim's success domain: the string matches the machine-type shape
with family n1 (any parseable cpu count), n2 with at most 128 cpus, or c2
with at most 60 cpus; the cpu count must parse without overflow. -/
def recognizedMachineType (s : List Nat) : Bool :=
  match machineTypeMatch s with
  | none => false
  | some (letter, fds, cds) =>
    match goAtoi cds with
    | .error _ => false
    | .ok n =>
      (decide (letter = 110) && decide (fds = [49])) ||
      (decide (letter = 110) && decide (fds = [50]) && decide (n ≤ 128)) ||
      (decide (letter = 99) && decide (fds = [50]) && decide (n ≤ 60))

/-- C10: AllowedLocalSSDCount either errors or returns a non-empty strictly
increasing list of positive SSD counts, and every string outside the
recognized n1/n2 (including n2d)/c2 machine families errors. -/
theorem allowedLocalSSDCount_spec (s : List Nat) :
    (∀ l, AllowedLocalSSDCount s = .ok l →
      l ≠ [] ∧ List.Pairwise (· < ·) l ∧ ∀ x ∈ l, 0 < x) ∧
    (recognizedMachineType s = false → ∃ e, AllowedLocalSSDCount s = .error e) := by
  cases hm : machineTypeMatch s with
  | none =>
    constructor
    · intro l hl
      simp only [AllowedLocalSSDCount, hm] at hl
      cases hl
    · intro hrec
      refine ⟨"unsupported machine type", ?_⟩
      simp only [AllowedLocalSSDCount, hm]
  | some t =>
    obtain ⟨letter, fds, cds⟩ := t
    cases hA : goAtoi cds with
    | error e =>
      constructor
      · intro l hl
        simp only [AllowedLocalSSDCount, hm, hA] at hl
        cases hl
      · intro hrec
        refine ⟨e, ?_⟩
        simp only [AllowedLocalSSDCount, hm, hA]
    | ok n =>
      constructor
      · intro l hl
        simp only [AllowedLocalSSDCount, hm, hA] at hl
        split_ifs at hl
        all_goals
          (obtain rfl : _ = l := Except.ok.inj hl; exact ⟨by decide, by decide, by decide⟩)
      · intro hrec
        simp only [recognizedMachineType, hm, hA] at hrec
        simp only [AllowedLocalSSDCount, hm, hA]
        split_ifs
        all_goals first
          | exact ⟨_, rfl⟩
          | (exfalso; simp_all; omega)
          | (exfalso; simp_all)

/-- Closed instance of C10: n1 machines get the fixed list, and an
unsupported family errors. -/
theorem allowedLocalSSDCount_spec_witness :
    (AllowedLocalSSDCount [110, 49, 45, 115, 116, 97, 110, 100, 97, 114, 100, 45, 56] =
        .ok [1, 2, 3, 4, 5, 6, 7, 8, 16, 24] ∧
      ([1, 2, 3, 4, 5, 6, 7, 8, 16, 24] ≠ ([] : List Nat) ∧
        List.Pairwise (· < ·) [1, 2, 3, 4, 5, 6, 7, 8, 16, 24] ∧
        ∀ x ∈ [1, 2, 3, 4, 5, 6, 7, 8, 16, 24], 0 < x)) ∧
    (recognizedMachineType [116, 50, 45, 115, 109, 97, 108, 108, 45, 52] = false ∧
      ∃ e, AllowedLocalSSDCount [116, 50, 45, 115, 109, 97, 108, 108, 45, 52] =
        .error e) :=
  ⟨⟨rfl,
    (allowedLocalSSDCount_spec [110, 49, 45, 115, 116, 97, 110, 100, 97, 114, 100, 45, 56]).1
      _ rfl⟩,
   ⟨by decide,
    (allowedLocalSSDCount_spec [116, 50, 45, 115, 109, 97, 108, 108, 45, 52]).2 (by decide)⟩⟩

end Gcloud
